import Mathlib

/-!
Shallow embedding of the proxy-pool manager of `proxy_switcher/chain.py`.

The pool partitions proxy addresses into `free` (a FIFO deque), `used`
(a set), `cooling` (an insertion-ordered dict address → absolute deadline)
and `blacklisted` (a last-updated-ordered dict address → optional reason),
plus per-proxy `stats`.  Python dicts are modelled as association lists
(which preserve insertion order exactly as CPython dicts do), wall-clock
times and holdout durations as exact rationals (`0.75` and `2` are exactly
representable, so the smart-holdout arithmetic matches the float code on
the values where the claims speak), and Python `set`s as lists considered
up to membership.
-/

namespace ProxySwitcher

abbrev Addr := String

/-- Per-proxy statistics (`_stats` values): `uptime = (ok, fail)`,
`last_holdout` and `last_good_holdout` in seconds.  A `none` field models
both an absent key and a stored Python `None`. -/
structure ProxyStat where
  uptime : Nat × Nat
  last_holdout : Option ℚ
  last_good_holdout : Option ℚ
deriving DecidableEq

/-- The four collections of `_Pool` plus the stats map. -/
structure PoolState where
  free : List Addr
  used : List Addr
  cooling : List (Addr × ℚ)
  blacklisted : List (Addr × Option String)
  stats : List (Addr × ProxyStat)
deriving DecidableEq

/-- Construction parameters of `_Pool.__init__`.  `smart_holdout_max = none`
models the default `float('inf')`; `smart_holdout_start = none` models
Python `None` (the constructor rejects it when `smart_holdout` is set). -/
structure PoolConfig where
  smart_holdout : Bool
  smart_holdout_start : Option ℚ
  smart_holdout_min : ℚ
  smart_holdout_max : Option ℚ
  default_holdout : Option ℚ
  default_bad_holdout : Option ℚ
  force_defaults : Bool
deriving DecidableEq

/-- Keys of an association list (a Python dict's iteration order). -/
def keysOf {α : Type} (l : List (Addr × α)) : List Addr := l.map Prod.fst

/-- Dict lookup. -/
def alookup {α : Type} : List (Addr × α) → Addr → Option α
  | [], _ => none
  | kv :: rest, k => if kv.1 = k then some kv.2 else alookup rest k

/-- `dict.pop(k)`: drop the entry with key `k`. -/
def eraseKey {α : Type} (l : List (Addr × α)) (k : Addr) : List (Addr × α) :=
  l.filter (fun kv => kv.1 ≠ k)

/-- `d[k] = v` on a plain (insertion-ordered) dict: update in place if the
key exists, else append. -/
def insertOrdered {α : Type} (l : List (Addr × α)) (k : Addr) (v : α) : List (Addr × α) :=
  if k ∈ keysOf l then l.map (fun kv => if kv.1 = k then (k, v) else kv)
  else l ++ [(k, v)]

/-- `d[k] = v` on `JsonLastUpdatedOrderedDict` (the blacklist): the key is
moved to the end on re-insertion. -/
def insertLastUpdated {α : Type} (l : List (Addr × α)) (k : Addr) (v : α) : List (Addr × α) :=
  l.filter (fun kv => kv.1 ≠ k) ++ [(k, v)]

/-- `set.add`: membership-preserving insertion. -/
def insertSet (l : List Addr) (p : Addr) : List Addr :=
  if p ∈ l then l else l ++ [p]

/-- Python `a or b` on optional numbers: `None` and `0` are falsy. -/
def pyOr (a b : Option ℚ) : Option ℚ :=
  match a with
  | none => b
  | some x => if x = 0 then b else some x

/-- `_Pool._get_next_holdout`: the adaptive cooldown recommendation.
Returns `none` when there are no stats for the proxy.  When stats exist
but `last_holdout` is the stored Python `None`, CPython would raise a
`TypeError` on the comparison/multiplication; that situation cannot arise
while smart holdout is enabled (every stored `last_holdout` is numeric
then), and is modelled as `none`. -/
def get_next_holdout (stats : List (Addr × ProxyStat)) (proxy : Addr) (bad : Bool) : Option ℚ :=
  match alookup stats proxy with
  | none => none
  | some ps =>
    match ps.last_holdout with
    | none => none
    | some lo =>
      let g := ps.last_good_holdout.getD 0
      if bad then
        if lo < g then some g else some (lo * 2)
      else
        some (lo * (3 / 4))

/-- `_Pool._update_stats`. -/
def update_stats (stats : List (Addr × ProxyStat)) (proxy : Addr) (bad : Bool)
    (holdout : Option ℚ) : List (Addr × ProxyStat) :=
  let ps := (alookup stats proxy).getD { uptime := (0, 0), last_holdout := none, last_good_holdout := none }
  let ok := ps.uptime.1
  let failed := ps.uptime.2
  let uptime := if bad then (ok, failed + 1) else (ok + 1, failed)
  let good : Bool := !bad || (match holdout with
    | some h => decide (ps.last_good_holdout.getD 0 ≤ h)
    | none => false)
  insertOrdered stats proxy
    { uptime := uptime, last_holdout := holdout,
      last_good_holdout := if good then holdout else ps.last_good_holdout }

/-- The clamping block of `_Pool.release` (lines 538-544): clamp the
computed `_holdout` into `[smart_holdout_min, smart_holdout_max]`, where a
missing max is `float('inf')` (the `> max` branch is then never taken). -/
def smartClamp (mn : ℚ) (mx : Option ℚ) (h : ℚ) : ℚ :=
  match mx with
  | none => if h < mn then mn else max mn h
  | some m => if h < mn then mn else if h > m then m else max mn h

/-- `if holdout is None or self._force_defaults:` — substitute the
configured defaults for the caller's argument. -/
def defaulted_holdout (cfg : PoolConfig) (bad : Bool) (holdout : Option ℚ) : Option ℚ :=
  if holdout = none ∨ cfg.force_defaults then
    (if bad then cfg.default_bad_holdout else cfg.default_holdout)
  else holdout

/-- The fallback chain
`self._get_next_holdout(proxy, bad=bad) or holdout or self._smart_holdout_start`
of `_Pool.release`. -/
def smart_chain (cfg : PoolConfig) (stats : List (Addr × ProxyStat)) (proxy : Addr)
    (bad : Bool) (h1 : Option ℚ) : Option ℚ :=
  pyOr (pyOr (get_next_holdout stats proxy bad) h1) cfg.smart_holdout_start

/-- `_Pool.release(proxy, bad, holdout, bad_reason)` at wall-clock `now`. -/
def release (cfg : PoolConfig) (now : ℚ) (st : PoolState) (proxy : Addr)
    (bad : Bool) (holdout : Option ℚ) (bad_reason : Option String) : PoolState :=
  if proxy ∈ st.used then
    let used' := st.used.erase proxy
    let h1 : Option ℚ := defaulted_holdout cfg bad holdout
    let h2 : Option ℚ :=
      if cfg.smart_holdout then
        match smart_chain cfg st.stats proxy bad h1 with
        | some v => some (smartClamp cfg.smart_holdout_min cfg.smart_holdout_max v)
        -- only reachable with `smart_holdout_start = None`, which the
        -- constructor rejects; CPython would raise a TypeError on `None < min`
        | none => none
      else h1
    let cooling' := match h2 with
      | some h => insertOrdered st.cooling proxy (now + h)
      | none => st.cooling
    let blacklisted' := if bad then insertLastUpdated st.blacklisted proxy bad_reason else st.blacklisted
    let free' := if bad then st.free else if h2 = none then st.free ++ [proxy] else st.free
    { free := free', used := used', cooling := cooling', blacklisted := blacklisted',
      stats := update_stats st.stats proxy bad h2 }
  else
    -- `is_outdated`: the handle is stale, silently ignored
    st

/-- `_Pool._cool_released` at wall-clock `now`: move every expired cooling
entry out of `cooling`; append it to `free` unless it is blacklisted. -/
def cool_released (now : ℚ) (st : PoolState) : PoolState :=
  let cooled := (st.cooling.filter (fun kv => decide (now ≥ kv.2))).map Prod.fst
  { st with
    cooling := st.cooling.filter (fun kv => decide (¬ now ≥ kv.2)),
    free := st.free ++ cooled.filter (fun p => decide (p ∉ keysOf st.blacklisted)) }

/-- `_Pool._remove_outdated`, run when the registry list changed to `R`:
drop keys not in `R` from blacklist, cooling, used and stats; then compute
the eligible set `free = R \ (used ∪ blacklisted ∪ cooling)` and shrink the
free deque to `old_free ∩ free` — but only rebuild it when some old entry
became ineligible.  CPython iterates hash sets here in unspecified order;
the rebuilt deque is modelled keeping the old deque's order (every claim
proved about it is order-independent). -/
def remove_outdated (R : List Addr) (st : PoolState) : PoolState :=
  let blacklisted := st.blacklisted.filter (fun kv => decide (kv.1 ∈ R))
  let cooling := st.cooling.filter (fun kv => decide (kv.1 ∈ R))
  let used := st.used.filter (fun p => decide (p ∈ R))
  let stats := st.stats.filter (fun kv => decide (kv.1 ∈ R))
  let elig : Addr → Prop := fun p =>
    p ∈ R ∧ p ∉ used ∧ p ∉ keysOf blacklisted ∧ p ∉ keysOf cooling
  let newFree := st.free.filter (fun p => decide (elig p))
  { free := if st.free.all (fun p => decide (elig p)) then st.free else newFree,
    used := used, cooling := cooling, blacklisted := blacklisted, stats := stats }

/-- The `_uptime` key of the blacklist rescue in `_Pool.acquire`:
`ok // fail` when `fail ≠ 0`, else `ok`; `+∞` when the proxy has no stats. -/
def uptime_of (stats : List (Addr × ProxyStat)) (p : Addr) : WithTop ℕ :=
  match alookup stats p with
  | none => ⊤
  | some ps =>
    if ps.uptime.2 ≠ 0 then (ps.uptime.1 / ps.uptime.2 : ℕ) else (ps.uptime.1 : ℕ)

/-- `sorted(_, key=_uptime, reverse=True)` orders by key descending. -/
def descBy (key : Addr → WithTop ℕ) (a b : Addr) : Prop := key b ≤ key a

instance (key : Addr → WithTop ℕ) : DecidableRel (descBy key) :=
  fun a b => inferInstanceAs (Decidable (key b ≤ key a))

instance (key : Addr → WithTop ℕ) : IsTotal Addr (descBy key) :=
  ⟨fun a b => le_total (key b) (key a)⟩

instance (key : Addr → WithTop ℕ) : IsTrans Addr (descBy key) :=
  ⟨fun _ _ _ h1 h2 => le_trans h2 h1⟩

/-- Python's `sorted` is stable; a stable sort is extensionally unique, so
insertion sort is a faithful model of `sorted(..., reverse=True)`. -/
def sortDesc (key : Addr → WithTop ℕ) (l : List Addr) : List Addr :=
  l.insertionSort (descBy key)

/-- The generator `next((p for p in sorted(blacklist, key=_uptime,
reverse=True) if p not in cooling), None)` of `_Pool.acquire`. -/
def rescuePick (st : PoolState) : Option Addr :=
  (sortDesc (uptime_of st.stats) (keysOf st.blacklisted)).find?
    (fun p => decide (p ∉ keysOf st.cooling))

/-- First element attaining the maximum key (specification device used to
characterise the stable-descending-sort-then-find of `rescuePick`). -/
def firstMax (key : Addr → WithTop ℕ) : List Addr → Option Addr
  | [] => none
  | x :: xs =>
    match firstMax key xs with
    | none => some x
    | some y => if key x < key y then some y else some x

/-- Outcome of one pass of the `acquire` loop body: either a proxy is
returned, or the thread waits on the condition variable (`wait true` is
the bounded 1-second wait taken while `cooling` is non-empty). -/
inductive AcquireOutcome where
  | acquired : Addr → AcquireOutcome
  | wait : Bool → AcquireOutcome
deriving DecidableEq

/-- The selection part of the `acquire` loop body (after reconciliation
and cooling promotion): pop from `free`, else rescue from the blacklist. -/
def acquireSelect (st : PoolState) : AcquireOutcome × PoolState :=
  match st.free with
  | proxy :: rest =>
    (.acquired proxy, { st with free := rest, used := insertSet st.used proxy })
  | [] =>
    if st.blacklisted.isEmpty then (.wait (!st.cooling.isEmpty), st)
    else
      match rescuePick st with
      | some proxy =>
        (.acquired proxy,
         { st with blacklisted := eraseKey st.blacklisted proxy,
                   used := insertSet st.used proxy })
      | none => (.wait (!st.cooling.isEmpty), st)

/-- One full pass of the `acquire` loop body at wall-clock `now`.
`Rc = some R` models `_is_proxies_changed()` returning true with new
registry list `R` (then `_remove_outdated` runs); `Rc = none` models an
unchanged registry. -/
def acquireIter (Rc : Option (List Addr)) (now : ℚ) (st : PoolState) :
    AcquireOutcome × PoolState :=
  let st1 := match Rc with
    | some R => remove_outdated R st
    | none => st
  acquireSelect (cool_released now st1)

/-- What `acquire` does after the selection failed: wait, then check the
timeout (lines 503-510).  `NoFreeProxies` can only arise from a `wait`
outcome — never before a proxy would be returned. -/
inductive AcquireEvent where
  | returns : Addr → AcquireEvent
  | raisesNoFreeProxies : AcquireEvent
  | keepWaiting : AcquireEvent
deriving DecidableEq

def acquireDecide (timeout : Option ℚ) (elapsed : ℚ) :
    AcquireOutcome × PoolState → AcquireEvent
  | (.acquired p, _) => .returns p
  | (.wait _, _) =>
    match timeout with
    | none => .keepWaiting
    | some t => if elapsed > t then .raisesNoFreeProxies else .keepWaiting

/-- The pool invariant: the deque and the set-like collections have no
duplicate keys, `free` is disjoint from `used`, `cooling` and
`blacklisted`, and `used` is disjoint from `cooling` and `blacklisted`
(an address may be simultaneously blacklisted and cooling). -/
def Inv (st : PoolState) : Prop :=
  st.free.Nodup ∧ st.used.Nodup ∧
  (keysOf st.cooling).Nodup ∧ (keysOf st.blacklisted).Nodup ∧
  (∀ p ∈ st.free, p ∉ st.used) ∧
  (∀ p ∈ st.free, p ∉ keysOf st.cooling) ∧
  (∀ p ∈ st.free, p ∉ keysOf st.blacklisted) ∧
  (∀ p ∈ st.used, p ∉ keysOf st.cooling) ∧
  (∀ p ∈ st.used, p ∉ keysOf st.blacklisted)

instance (st : PoolState) : Decidable (Inv st) := by
  unfold Inv
  infer_instance

/-- Pool transitions: an `acquire` loop pass (with any registry
observation and wall clock) or a `release` call (with any arguments). -/
inductive Step : PoolState → PoolState → Prop where
  | acq (st : PoolState) (Rc : Option (List Addr)) (now : ℚ) :
      Step st (acquireIter Rc now st).2
  | rel (st : PoolState) (cfg : PoolConfig) (now : ℚ) (p : Addr) (bad : Bool)
      (holdout : Option ℚ) (reason : Option String) :
      Step st (release cfg now st p bad holdout reason)

/-- Reachability of pool states. -/
def Reachable : PoolState → PoolState → Prop := Relation.ReflTransGen Step

/-! ### Registry refresh (`Proxies.refresh` / `Proxies.read_url`) -/

/-- The two retryable failures of `read_url`: `urllib.error.HTTPError`
and `socket.timeout`. -/
inductive LoadError where
  | httpError : LoadError
  | socketTimeout : LoadError
deriving DecidableEq

/-- The retry loop of `Proxies.read_url`: attempt `i`; on failure, when
`retry` is exhausted re-raise the last error, else sleep and retry.  The
network is modelled by the oracle `attempts`. -/
def read_url (attempts : Nat → Except LoadError (List Addr)) :
    Nat → Nat → Except LoadError (List Addr)
  | i, retry =>
    match attempts i, retry with
    | .ok l, _ => .ok l
    | .error e, 0 => .error e
    | .error _, r + 1 => read_url attempts (i + 1) r

/-- In-memory proxy list of `Proxies` with its change marker
(`_modified_at`). -/
structure Registry where
  proxies : List Addr
  modified_at : ℚ
deriving DecidableEq

/-- `Proxies.refresh` given the outcome of `self._load()`: on success the
list and `_modified_at` are replaced; an `HTTPError` is caught and routed
to the problem sink (`problems.handle`, the `Bool` in the result) with
the list unchanged; any other exception — in particular `socket.timeout`
re-raised by `read_url` after all retries — propagates to the caller. -/
def refresh (reg : Registry) (loadResult : Except LoadError (List Addr)) (now : ℚ) :
    Except LoadError (Registry × Bool) :=
  match loadResult with
  | .ok l => .ok ({ proxies := l, modified_at := now }, false)
  | .error .httpError => .ok (reg, true)
  | .error .socketTimeout => .error .socketTimeout

/-! ### Scheme normalization (`Proxies._load`, `re.sub(r'^(?:(.*?)://)?', ...)`)

The lazy regex matches the shortest prefix ending in the first occurrence
of `"://"` (or the empty prefix when the string has none) and `re.sub`
replaces that single anchored match with `force_type + "://"`. -/

def scheme_sep : List Char := [':', '/', '/']

/-- The suffix after the first occurrence of `"://"`, if any. -/
def after_scheme : List Char → Option (List Char)
  | [] => none
  | c :: rest =>
    if c = ':' ∧ rest.take 2 = ['/', '/'] then some (rest.drop 2)
    else after_scheme rest

/-- `re.sub(r'^(?:(.*?)://)?', force_type + '://', proxy)`. -/
def apply_force_type (force proxy : List Char) : List Char :=
  force ++ scheme_sep ++ ((after_scheme proxy).getD proxy)

/-! ### Concrete fixtures used to instantiate theorems -/

/-- A pool configuration without smart holdout and without defaults. -/
def plainCfg : PoolConfig :=
  { smart_holdout := false, smart_holdout_start := none, smart_holdout_min := 0,
    smart_holdout_max := none, default_holdout := none, default_bad_holdout := none,
    force_defaults := false }

/-- A smart-holdout configuration: `smart_holdout_start=10`, bounds `[1, 1000]`
(the S4 scenario of the specification). -/
def smartCfg : PoolConfig :=
  { smart_holdout := true, smart_holdout_start := some 10, smart_holdout_min := 1,
    smart_holdout_max := some 1000, default_holdout := none, default_bad_holdout := none,
    force_defaults := false }

/-- A smart-holdout configuration with inverted bounds (`min = 5 > max = 1`),
accepted unchecked by `_Pool.__init__`. -/
def badBoundsCfg : PoolConfig :=
  { smart_holdout := true, smart_holdout_start := some 10, smart_holdout_min := 5,
    smart_holdout_max := some 1, default_holdout := none, default_bad_holdout := none,
    force_defaults := false }

/-- A pool with the single proxy `"a"` currently acquired. -/
def oneUsedSt : PoolState :=
  { free := [], used := ["a"], cooling := [], blacklisted := [], stats := [] }

/-- An exhausted pool: `free` empty, `"a"` blacklisted and cooling,
`"b"` blacklisted with mediocre stats (`3 // 2 = 1`). -/
def rescueSt : PoolState :=
  { free := [], used := [], cooling := [("a", 5)],
    blacklisted := [("a", none), ("b", some "ban")],
    stats := [("b", { uptime := (3, 2), last_holdout := none, last_good_holdout := none })] }

/-- A pool with one free, one used and one blacklisted-and-cooling proxy. -/
def mixedSt : PoolState :=
  { free := ["a"], used := ["b"], cooling := [("c", 9)],
    blacklisted := [("c", none)], stats := [] }

/-- The S5 reconciliation scenario: `"b"`, `"c"` free and `"a"` acquired,
about to observe the registry list `["b", "c", "d"]`. -/
def reconSt : PoolState :=
  { free := ["b", "c"], used := ["a"], cooling := [], blacklisted := [], stats := [] }

/-! ## Helper lemmas -/

theorem mem_keysOf {α : Type} {l : List (Addr × α)} {p : Addr} :
    p ∈ keysOf l ↔ ∃ kv ∈ l, kv.1 = p := by
  simp [keysOf, List.mem_map]

theorem alookup_eq_some_mem {α : Type} {l : List (Addr × α)} {k : Addr} {v : α}
    (h : alookup l k = some v) : (k, v) ∈ l := by
  induction l with
  | nil => simp [alookup] at h
  | cons kv rest ih =>
    obtain ⟨a, b⟩ := kv
    simp only [alookup] at h
    by_cases hk : a = k
    · subst hk
      simp only [if_true, eq_self_iff_true, if_pos] at h
      cases h
      exact List.mem_cons_self _ _
    · rw [if_neg hk] at h
      exact List.mem_cons_of_mem _ (ih h)

theorem alookup_insertOrdered_self {α : Type} (l : List (Addr × α)) (k : Addr) (v : α) :
    alookup (insertOrdered l k v) k = some v := by
  unfold insertOrdered
  split
  · rename_i hmem
    induction l with
    | nil => simp [keysOf] at hmem
    | cons kv rest ih =>
      by_cases hk : kv.1 = k
      · simp [alookup, hk]
      · have : k ∈ keysOf rest := by
          rcases mem_keysOf.mp hmem with ⟨kv', hkv', rfl⟩
          rcases List.mem_cons.mp hkv' with rfl | h
          · exact absurd rfl hk
          · exact mem_keysOf.mpr ⟨kv', h, rfl⟩
        simpa [alookup, hk] using ih this
  · induction l with
    | nil => simp [alookup]
    | cons kv rest ih =>
      rename_i hmem
      have hk : kv.1 ≠ k := fun h => hmem (mem_keysOf.mpr ⟨kv, List.mem_cons_self .., h⟩)
      have : k ∉ keysOf rest := fun h => by
        rcases mem_keysOf.mp h with ⟨kv', hkv', rfl⟩
        exact hmem (mem_keysOf.mpr ⟨kv', List.mem_cons_of_mem _ hkv', rfl⟩)
      simpa [alookup, hk] using ih this

theorem release_not_mem {cfg : PoolConfig} {now : ℚ} {st : PoolState} {p : Addr}
    {bad : Bool} {holdout : Option ℚ} {reason : Option String} (h : p ∉ st.used) :
    release cfg now st p bad holdout reason = st := by
  simp [release, h]

theorem release_used {cfg : PoolConfig} {now : ℚ} {st : PoolState} {p : Addr}
    {bad : Bool} {holdout : Option ℚ} {reason : Option String} (h : p ∈ st.used) :
    (release cfg now st p bad holdout reason).used = st.used.erase p := by
  simp only [release, if_pos h]

/-! ## C7 — releasing a proxy that is not in `used` is a silent no-op -/

/-- **C7.** For every proxy `p` not in `used`, `release(p, ...)` returns
silently and leaves the entire pool state unchanged; consequently (second
conjunct) releasing the same `p` twice makes the second call a no-op,
whatever its arguments. -/
theorem claim7_release_stale_noop (cfg cfg' : PoolConfig) (now now' : ℚ) (st : PoolState)
    (p : Addr) (bad bad' : Bool) (holdout holdout' : Option ℚ) (reason reason' : Option String) :
    (p ∉ st.used → release cfg now st p bad holdout reason = st) ∧
    (st.used.Nodup →
      release cfg' now' (release cfg now st p bad holdout reason) p bad' holdout' reason' =
        release cfg now st p bad holdout reason) := by
  constructor
  · exact fun h => release_not_mem h
  · intro hnodup
    by_cases hp : p ∈ st.used
    · apply release_not_mem
      rw [release_used hp]
      exact fun hmem => (hnodup.mem_erase_iff.mp hmem).1 rfl
    · rw [release_not_mem hp]
      exact release_not_mem hp

/-- Witness for C7 at a concrete pool: releasing `"b"` (never acquired) is
the identity, and a second release of `"a"` after the first is a no-op. -/
theorem claim7_release_stale_noop_witness :
    (release plainCfg 0 { free := [], used := ["a"], cooling := [], blacklisted := [], stats := [] }
        "b" false none none =
      { free := [], used := ["a"], cooling := [], blacklisted := [], stats := [] }) ∧
    (release plainCfg 1
        (release plainCfg 0 { free := [], used := ["a"], cooling := [], blacklisted := [], stats := [] }
          "a" true none none) "a" false none none =
      release plainCfg 0 { free := [], used := ["a"], cooling := [], blacklisted := [], stats := [] }
        "a" true none none) := by
  refine ⟨(claim7_release_stale_noop plainCfg plainCfg 0 0 _ "b" false false none none none none).1
    (by decide), (claim7_release_stale_noop plainCfg plainCfg 0 1 _ "a" true false none none none none).2
    (by decide)⟩

/-! ## C2 — URL refresh failure semantics -/

/-- **C2, counterexample.** The claim says a reload failure after all
retries is reported to the problem sink and "never raised to callers of
acquire".  But `Proxies.refresh` catches only `urllib.error.HTTPError`:
when every attempt fails with `socket.timeout`, `read_url` re-raises it
after the 10 retries and `refresh` propagates it (an `Except.error`
result, reaching `acquire` through `_auto_refresh`), instead of returning
with the problem-sink flag set. -/
theorem claim2_socket_timeout_escapes :
    refresh { proxies := ["a"], modified_at := 0 }
        (read_url (fun _ => .error .socketTimeout) 0 10) 1 =
      .error .socketTimeout := by
  rfl

/-- **C2, amended.** If the URL reload fails after all retries with an
HTTP error, the refresh operation fails without modifying the existing
proxy list (nor its change marker) and the failure is reported to the
problem sink instead of being raised; if it fails with a socket timeout,
the exception propagates to the caller — still without modifying the
list. -/
theorem claim2_refresh_failure_semantics (reg : Registry)
    (attempts : Nat → Except LoadError (List Addr)) (i n : Nat) (now : ℚ) (e : LoadError)
    (hfail : read_url attempts i n = .error e) :
    (e = .httpError → refresh reg (read_url attempts i n) now = .ok (reg, true)) ∧
    (e = .socketTimeout → refresh reg (read_url attempts i n) now = .error .socketTimeout) := by
  rw [hfail]
  cases e <;> simp [refresh]

/-- Witness for C2 at a concrete failing source: all attempts yield an
HTTP error, so refresh keeps the registry and reports to the sink. -/
theorem claim2_refresh_failure_semantics_witness :
    refresh { proxies := ["a"], modified_at := 0 }
        (read_url (fun _ => .error .httpError) 0 10) 1 =
      .ok ({ proxies := ["a"], modified_at := 0 }, true) :=
  (claim2_refresh_failure_semantics { proxies := ["a"], modified_at := 0 }
    (fun _ => .error .httpError) 0 10 1 .httpError rfl).1 rfl

/-! ## C8 — force-scheme normalization -/

theorem after_scheme_append (rest : List Char) :
    ∀ pre : List Char, after_scheme pre = none →
      after_scheme (pre ++ scheme_sep ++ rest) = some rest := by
  intro pre
  induction pre with
  | nil =>
    intro _
    simp [after_scheme, scheme_sep]
  | cons c pre' ih =>
    intro h
    simp only [after_scheme] at h
    split at h
    · exact absurd h (by simp)
    · rename_i hcond
      have h' := ih h
      simp only [List.cons_append, after_scheme]
      split
      · rename_i hcond2
        exfalso
        rcases hcond2 with ⟨rfl, htake⟩
        match pre' with
        | [] => simp [scheme_sep] at htake
        | [d] => simp [scheme_sep] at htake
        | d :: e :: tl =>
          apply hcond
          refine ⟨rfl, ?_⟩
          simpa using htake
      · exact h'

theorem after_scheme_some :
    ∀ s r : List Char, after_scheme s = some r → ∃ pre, s = pre ++ scheme_sep ++ r := by
  intro s
  induction s with
  | nil => intro r h; simp [after_scheme] at h
  | cons c rest ih =>
    intro r h
    simp only [after_scheme] at h
    split at h
    · rename_i hcond
      rcases hcond with ⟨rfl, htake⟩
      cases h
      refine ⟨[], ?_⟩
      have : rest = rest.take 2 ++ rest.drop 2 := (List.take_append_drop 2 rest).symm
      rw [htake] at this
      simp [scheme_sep]
      exact this
    · rcases ih r h with ⟨pre, hpre⟩
      exact ⟨c :: pre, by simp [hpre]⟩

/-- **C8.** With a force scheme configured, `_load` rewrites every proxy
string by replacing the leading `scheme://` prefix — where the scheme part
is the (lazily matched) text up to the *first* `"://"`, or empty when the
string has none — with `force_type ++ "://"`.  Every resulting entry
starts with the forced scheme and the remainder of the address is
preserved. -/
theorem claim8_force_scheme_normalizes (force proxy : List Char) :
    (after_scheme proxy = none → apply_force_type force proxy = force ++ scheme_sep ++ proxy) ∧
    (∀ pre rest : List Char, proxy = pre ++ scheme_sep ++ rest → after_scheme pre = none →
      apply_force_type force proxy = force ++ scheme_sep ++ rest) ∧
    (∃ rest, apply_force_type force proxy = force ++ scheme_sep ++ rest ∧
      (rest = proxy ∨ ∃ pre, proxy = pre ++ scheme_sep ++ rest)) := by
  refine ⟨fun h => by simp [apply_force_type, h], ?_, ?_⟩
  · rintro pre rest rfl hpre
    have hA := after_scheme_append rest pre hpre
    simp only [apply_force_type, hA, Option.getD_some]
  · cases h : after_scheme proxy with
    | none => exact ⟨proxy, by simp [apply_force_type, h], Or.inl rfl⟩
    | some r => exact ⟨r, by simp [apply_force_type, h], Or.inr (after_scheme_some proxy r h)⟩

/-- Witness for C8: `"http://h:1"` is rewritten to `"socks5://h:1"`
(conjunct 2 at `pre = "http"`), and a bare `"h:1"` gets the scheme
prepended (conjunct 1). -/
theorem claim8_force_scheme_normalizes_witness :
    apply_force_type "socks5".data "http://h:1".data = "socks5://h:1".data ∧
    apply_force_type "socks5".data "h:1".data = "socks5://h:1".data := by
  constructor
  · have := (claim8_force_scheme_normalizes "socks5".data "http://h:1".data).2.1
      "http".data "h:1".data (by decide) (by decide)
    rw [this]
    decide
  · have := (claim8_force_scheme_normalizes "socks5".data "h:1".data).1 (by decide)
    rw [this]
    decide

/-! ## C1 — reconciliation after a registry list change -/

/-- **C1, counterexample.** Registry list changes from `["a","b","c"]`
(with `"a"` in use) to `R = ["b","c","d"]`.  The claim says the new
address `"d"` — in `R` and in none of `used`/`blacklisted`/`cooling` —
appears in `free` after reconciliation and after the next `acquire` pass
observing the change.  The code's `_remove_outdated` only *intersects*
the old free deque with the eligible set, so `free` stays `["b","c"]`
and `"d"` is nowhere (it can never be acquired). -/
theorem claim1_new_address_not_in_free :
    (remove_outdated ["b", "c", "d"]
        { free := ["b", "c"], used := ["a"], cooling := [], blacklisted := [], stats := [] }).free
      = ["b", "c"] ∧
    "d" ∉ (remove_outdated ["b", "c", "d"]
        { free := ["b", "c"], used := ["a"], cooling := [], blacklisted := [], stats := [] }).free ∧
    "d" ∉ (acquireIter (some ["b", "c", "d"]) 0
        { free := ["b", "c"], used := ["a"], cooling := [], blacklisted := [], stats := [] }).2.free := by
  decide

theorem remove_outdated_free_eq (R : List Addr) (st : PoolState) :
    (remove_outdated R st).free = st.free.filter (fun p => decide (p ∈ R ∧
      p ∉ (remove_outdated R st).used ∧
      p ∉ keysOf (remove_outdated R st).blacklisted ∧
      p ∉ keysOf (remove_outdated R st).cooling)) := by
  show (if _ then st.free else _) = _
  split
  · rename_i hall
    exact (List.filter_eq_self.mpr (fun a ha => List.all_eq_true.mp hall a ha)).symm
  · rfl

/-- **C1, amended.** After the pool observes a registry list change to
`R`, reconciliation drops keys not in `R` from `blacklisted`, `cooling`,
`used` and `stats`; `free` however is *not* rebuilt as
`R \ (used ∪ blacklisted ∪ cooling)` — as a set it keeps exactly those of
its previous entries that are in `R` and still eligible (the deque is
refilled from a Python set, in unspecified order, and only when some
previous entry became ineligible), so newly-added addresses never appear
in `free`.  The `free` conjunct is stated as a membership equivalence,
which is insensitive to CPython's unspecified set-iteration order. -/
theorem claim1_reconcile_drop_only (R : List Addr) (st : PoolState) :
    (remove_outdated R st).blacklisted = st.blacklisted.filter (fun kv => decide (kv.1 ∈ R)) ∧
    (remove_outdated R st).cooling = st.cooling.filter (fun kv => decide (kv.1 ∈ R)) ∧
    (remove_outdated R st).used = st.used.filter (fun p => decide (p ∈ R)) ∧
    (remove_outdated R st).stats = st.stats.filter (fun kv => decide (kv.1 ∈ R)) ∧
    (∀ p : Addr, p ∈ (remove_outdated R st).free ↔
      (p ∈ st.free ∧ p ∈ R ∧
        p ∉ (remove_outdated R st).used ∧
        p ∉ keysOf (remove_outdated R st).blacklisted ∧
        p ∉ keysOf (remove_outdated R st).cooling)) := by
  refine ⟨rfl, rfl, rfl, rfl, ?_⟩
  intro p
  rw [remove_outdated_free_eq R st, List.mem_filter]
  constructor
  · rintro ⟨h1, h2⟩
    exact ⟨h1, of_decide_eq_true h2⟩
  · rintro ⟨h1, h2⟩
    exact ⟨h1, decide_eq_true h2⟩

/-- Witness for C1 (amended) at the S5 scenario state and the registry
list `["b", "c", "d"]`. -/
theorem claim1_reconcile_drop_only_witness :
    (remove_outdated ["b", "c", "d"] reconSt).blacklisted =
      reconSt.blacklisted.filter (fun kv => decide (kv.1 ∈ ["b", "c", "d"])) ∧
    (remove_outdated ["b", "c", "d"] reconSt).cooling =
      reconSt.cooling.filter (fun kv => decide (kv.1 ∈ ["b", "c", "d"])) ∧
    (remove_outdated ["b", "c", "d"] reconSt).used =
      reconSt.used.filter (fun p => decide (p ∈ ["b", "c", "d"])) ∧
    (remove_outdated ["b", "c", "d"] reconSt).stats =
      reconSt.stats.filter (fun kv => decide (kv.1 ∈ ["b", "c", "d"])) ∧
    (∀ p : Addr, p ∈ (remove_outdated ["b", "c", "d"] reconSt).free ↔
      (p ∈ reconSt.free ∧ p ∈ ["b", "c", "d"] ∧
        p ∉ (remove_outdated ["b", "c", "d"] reconSt).used ∧
        p ∉ keysOf (remove_outdated ["b", "c", "d"] reconSt).blacklisted ∧
        p ∉ keysOf (remove_outdated ["b", "c", "d"] reconSt).cooling)) :=
  claim1_reconcile_drop_only ["b", "c", "d"] reconSt

/-! ## Smart-holdout helper lemmas -/

theorem pyOr_some_of_ne_zero {x : ℚ} (b : Option ℚ) (hx : x ≠ 0) :
    pyOr (some x) b = some x := by
  simp [pyOr, hx]

theorem pyOr_none (b : Option ℚ) : pyOr none b = b := rfl

theorem smart_chain_some_of_start {cfg : PoolConfig} {s : ℚ}
    (hstart : cfg.smart_holdout_start = some s)
    (stats : List (Addr × ProxyStat)) (p : Addr) (bad : Bool) (h1 : Option ℚ) :
    ∃ v, smart_chain cfg stats p bad h1 = some v := by
  unfold smart_chain
  rw [hstart]
  rcases pyOr (get_next_holdout stats p bad) h1 with _ | x
  · exact ⟨s, rfl⟩
  · by_cases hx : x = 0
    · exact ⟨s, by simp [pyOr, hx]⟩
    · exact ⟨x, by simp [pyOr, hx]⟩

theorem smart_chain_of_rule (cfg : PoolConfig) {stats : List (Addr × ProxyStat)}
    {p : Addr} {bad : Bool} {v : ℚ} (h1 : Option ℚ)
    (hrule : get_next_holdout stats p bad = some v) (hv : v ≠ 0) :
    smart_chain cfg stats p bad h1 = some v := by
  unfold smart_chain
  rw [hrule, pyOr_some_of_ne_zero _ hv, pyOr_some_of_ne_zero _ hv]

theorem smart_chain_no_stats {cfg : PoolConfig} {stats : List (Addr × ProxyStat)}
    {p : Addr} {bad : Bool} (h1 : Option ℚ)
    (hrule : get_next_holdout stats p bad = none) :
    smart_chain cfg stats p bad h1 = pyOr h1 cfg.smart_holdout_start := by
  unfold smart_chain
  rw [hrule, pyOr_none]

theorem smartClamp_ge_min (mn : ℚ) (mx : Option ℚ) (v : ℚ)
    (hmx : ∀ m, mx = some m → mn ≤ m) : mn ≤ smartClamp mn mx v := by
  cases mx with
  | none =>
    by_cases h : v < mn
    · simp [smartClamp, h]
    · simp only [smartClamp, if_neg h]
      exact le_max_left mn v
  | some m =>
    by_cases h : v < mn
    · simp [smartClamp, h]
    · by_cases h2 : v > m
      · simpa [smartClamp, h, h2] using hmx m rfl
      · simp only [smartClamp, if_neg h, if_neg h2]
        exact le_max_left mn v

theorem smartClamp_le_max (mn : ℚ) (m : ℚ) (v : ℚ) (hmm : mn ≤ m) :
    smartClamp mn (some m) v ≤ m := by
  by_cases h : v < mn
  · simpa [smartClamp, h] using hmm
  · by_cases h2 : v > m
    · simp [smartClamp, h, h2]
    · simp only [smartClamp, if_neg h, if_neg h2]
      exact max_le hmm (le_of_not_lt h2)

/-- The smart-holdout path of `release` for an in-use proxy whose fallback
chain produced the value `v`: the proxy is cooled until `now + clamp v`,
the free deque is untouched (the immediate-reuse branch is not taken),
and the proxy leaves `used`. -/
theorem release_smart {cfg : PoolConfig} {st : PoolState} (now : ℚ) {p : Addr}
    {bad : Bool} {holdout : Option ℚ} (reason : Option String) {v : ℚ}
    (hsm : cfg.smart_holdout = true) (hp : p ∈ st.used)
    (hchain : smart_chain cfg st.stats p bad (defaulted_holdout cfg bad holdout) = some v) :
    (release cfg now st p bad holdout reason).cooling =
      insertOrdered st.cooling p
        (now + smartClamp cfg.smart_holdout_min cfg.smart_holdout_max v) ∧
    (release cfg now st p bad holdout reason).free = st.free ∧
    (release cfg now st p bad holdout reason).used = st.used.erase p := by
  refine ⟨?_, ?_, release_used hp⟩
  · simp only [release, if_pos hp, hsm, if_true, hchain]
  · simp only [release, if_pos hp, hsm, if_true, hchain]
    split
    · rfl
    · split
      · simp_all
      · rfl

/-! ## C9 — with smart holdout, release always cools -/

/-- **C9.** With smart holdout enabled (the constructor then requires a
numeric, non-zero `smart_holdout_start`), every non-stale release
computes a non-null numeric holdout — the fallback chain ends in
`smart_holdout_start` and the clamp produces a number — so the proxy is
always placed into `cooling`, and the branch returning it directly to
`free` (and notifying a waiter) is unreachable: `free` is unchanged even
for `release(bad=false, holdout=None)`. -/
theorem claim9_smart_holdout_always_cools (cfg : PoolConfig) (st : PoolState) (now : ℚ)
    (p : Addr) (bad : Bool) (holdout : Option ℚ) (reason : Option String) (s : ℚ)
    (hsm : cfg.smart_holdout = true) (hstart : cfg.smart_holdout_start = some s)
    (hp : p ∈ st.used) :
    (∃ h : ℚ, alookup (release cfg now st p bad holdout reason).cooling p = some (now + h)) ∧
    (release cfg now st p bad holdout reason).free = st.free := by
  obtain ⟨v, hchain⟩ :=
    smart_chain_some_of_start hstart st.stats p bad (defaulted_holdout cfg bad holdout)
  obtain ⟨hcool, hfree, -⟩ := release_smart now reason hsm hp hchain
  refine ⟨⟨smartClamp cfg.smart_holdout_min cfg.smart_holdout_max v, ?_⟩, hfree⟩
  rw [hcool]
  exact alookup_insertOrdered_self ..

/-- Witness for C9: a proxy released as good with no holdout argument is
nevertheless cooled (until `0 + 10` under `smartCfg`), and `free` stays
empty. -/
theorem claim9_smart_holdout_always_cools_witness :
    (∃ h : ℚ, alookup (release smartCfg 0
        { free := [], used := ["p"], cooling := [], blacklisted := [], stats := [] }
        "p" false none none).cooling "p" = some (0 + h)) ∧
    (release smartCfg 0
        { free := [], used := ["p"], cooling := [], blacklisted := [], stats := [] }
        "p" false none none).free = [] :=
  claim9_smart_holdout_always_cools smartCfg
    { free := [], used := ["p"], cooling := [], blacklisted := [], stats := [] }
    0 "p" false none none 10 rfl rfl (by decide)

/-! ## C6 — cooldown deltas and the clamp interval -/

/-- **C6, counterexample.** Nothing validates
`smart_holdout_min ≤ smart_holdout_max`.  With `min = 5`, `max = 1` and
`smart_holdout_start = 10` (a configuration the constructor accepts), the
first release stores the delta `1 = max` into `cooling`, and
`1 ∉ [min, max] = [5, 1]` since `¬ 5 ≤ 1`: the claimed interval bound
fails as stated. -/
theorem claim6_delta_outside_interval :
    alookup (release badBoundsCfg 0 oneUsedSt "a" false none none).cooling "a" =
      some (0 + 1) ∧
    ¬ (badBoundsCfg.smart_holdout_min ≤ 1) := by
  constructor
  · have hchain : smart_chain badBoundsCfg oneUsedSt.stats "a" false
        (defaulted_holdout badBoundsCfg false none) = some 10 := rfl
    obtain ⟨hcool, -, -⟩ :=
      release_smart 0 none rfl (by decide) hchain
    rw [hcool]
    rw [alookup_insertOrdered_self]
    have : smartClamp badBoundsCfg.smart_holdout_min badBoundsCfg.smart_holdout_max 10 = 1 := by
      norm_num [smartClamp, badBoundsCfg]
    rw [this]
  · norm_num [badBoundsCfg]

/-- **C6, amended.** With smart holdout enabled and a well-formed bound
pair (`smart_holdout_min ≤ smart_holdout_max` whenever the max is
finite), every cooldown delta stored into `cooling` by a non-stale
release lies in `[smart_holdout_min, smart_holdout_max]` (only the lower
bound when the max is the default `+∞`). -/
theorem claim6_delta_clamped (cfg : PoolConfig) (st : PoolState) (now : ℚ)
    (p : Addr) (bad : Bool) (holdout : Option ℚ) (reason : Option String) (s : ℚ)
    (hsm : cfg.smart_holdout = true) (hstart : cfg.smart_holdout_start = some s)
    (hp : p ∈ st.used)
    (hmm : ∀ m, cfg.smart_holdout_max = some m → cfg.smart_holdout_min ≤ m) :
    ∃ h : ℚ, alookup (release cfg now st p bad holdout reason).cooling p = some (now + h) ∧
      cfg.smart_holdout_min ≤ h ∧
      (∀ m, cfg.smart_holdout_max = some m → h ≤ m) := by
  obtain ⟨v, hchain⟩ :=
    smart_chain_some_of_start hstart st.stats p bad (defaulted_holdout cfg bad holdout)
  obtain ⟨hcool, -, -⟩ := release_smart now reason hsm hp hchain
  refine ⟨smartClamp cfg.smart_holdout_min cfg.smart_holdout_max v, ?_, ?_, ?_⟩
  · rw [hcool]
    exact alookup_insertOrdered_self ..
  · exact smartClamp_ge_min _ _ _ hmm
  · rintro m hm
    rw [hm]
    exact smartClamp_le_max _ _ _ (hmm m hm)

/-- Witness for C6 (amended) at `smartCfg` (`min = 1 ≤ max = 1000`). -/
theorem claim6_delta_clamped_witness :
    ∃ h : ℚ, alookup (release smartCfg 0 oneUsedSt "a" true none none).cooling "a" =
        some (0 + h) ∧
      smartCfg.smart_holdout_min ≤ h ∧
      (∀ m, smartCfg.smart_holdout_max = some m → h ≤ m) :=
  claim6_delta_clamped smartCfg oneUsedSt 0 "a" true none none 10 rfl rfl (by decide)
    (by
      intro m hm
      have h1000 : (some (1000 : ℚ) : Option ℚ) = some m := hm
      obtain rfl : (1000 : ℚ) = m := Option.some.inj h1000
      norm_num [smartCfg])

/-! ## C3 — the adaptive smart-holdout rule -/

theorem get_next_holdout_eq {stats : List (Addr × ProxyStat)} {p : Addr} {ps : ProxyStat}
    {lo : ℚ} (bad : Bool) (hps : alookup stats p = some ps) (hlo : ps.last_holdout = some lo) :
    get_next_holdout stats p bad =
      some (if bad then
              (if lo < ps.last_good_holdout.getD 0 then ps.last_good_holdout.getD 0 else lo * 2)
            else lo * (3 / 4)) := by
  cases bad with
  | false => simp [get_next_holdout, hps, hlo]
  | true =>
    simp only [get_next_holdout, hps, hlo, if_true]
    split_ifs <;> rfl

/-- **C3.** With smart holdout enabled, the cooldown computed at release
follows the adaptive rule.  (A) `_get_next_holdout`: on `bad=true`, if
`last_holdout < last_good_holdout` the recommendation is
`last_good_holdout`, else `last_holdout * 2`; on `bad=false` it is
`last_holdout * 0.75`.  (B1) First release with no stats, no caller
holdout and no defaults: `smart_holdout_start` is the holdout used.
(B2) First release with a caller holdout `h0 ≠ 0`: `h0` is used.
(C) Subsequent release with stats (positive `last_holdout`, non-negative
`last_good_holdout`): the stored cooling delta is the rule's result
computed first and clamped afterwards. -/
theorem claim3_smart_holdout_rule (cfg : PoolConfig) (st : PoolState) (now : ℚ)
    (p : Addr) (reason : Option String) (s : ℚ)
    (hsm : cfg.smart_holdout = true) (hp : p ∈ st.used) :
    (∀ (bad : Bool) (ps : ProxyStat) (lo : ℚ), alookup st.stats p = some ps →
      ps.last_holdout = some lo →
      get_next_holdout st.stats p bad =
        some (if bad then
                (if lo < ps.last_good_holdout.getD 0 then ps.last_good_holdout.getD 0 else lo * 2)
              else lo * (3 / 4))) ∧
    (alookup st.stats p = none → cfg.smart_holdout_start = some s →
      cfg.default_holdout = none → cfg.default_bad_holdout = none →
      ∀ bad, alookup (release cfg now st p bad none reason).cooling p =
        some (now + smartClamp cfg.smart_holdout_min cfg.smart_holdout_max s)) ∧
    (∀ h0 : ℚ, alookup st.stats p = none → h0 ≠ 0 → cfg.force_defaults = false →
      ∀ bad, alookup (release cfg now st p bad (some h0) reason).cooling p =
        some (now + smartClamp cfg.smart_holdout_min cfg.smart_holdout_max h0)) ∧
    (∀ (bad : Bool) (ps : ProxyStat) (lo : ℚ), alookup st.stats p = some ps →
      ps.last_holdout = some lo → 0 < lo → 0 ≤ ps.last_good_holdout.getD 0 →
      ∀ holdout, alookup (release cfg now st p bad holdout reason).cooling p =
        some (now + smartClamp cfg.smart_holdout_min cfg.smart_holdout_max
          (if bad then
            (if lo < ps.last_good_holdout.getD 0 then ps.last_good_holdout.getD 0 else lo * 2)
           else lo * (3 / 4)))) := by
  refine ⟨fun bad ps lo hps hlo => get_next_holdout_eq bad hps hlo, ?_, ?_, ?_⟩
  · intro hstats hstart hdh hdbh bad
    have hg : get_next_holdout st.stats p bad = none := by
      simp [get_next_holdout, hstats]
    have hh1 : defaulted_holdout cfg bad none = none := by
      cases bad <;> simp [defaulted_holdout, hdh, hdbh]
    have hchain : smart_chain cfg st.stats p bad (defaulted_holdout cfg bad none) = some s := by
      rw [hh1]
      unfold smart_chain
      rw [hg, pyOr_none, pyOr_none, hstart]
    obtain ⟨hcool, -, -⟩ := release_smart now reason hsm hp hchain
    rw [hcool]
    exact alookup_insertOrdered_self ..
  · intro h0 hstats h0ne hforce bad
    have hg : get_next_holdout st.stats p bad = none := by
      simp [get_next_holdout, hstats]
    have hh1 : defaulted_holdout cfg bad (some h0) = some h0 := by
      simp [defaulted_holdout, hforce]
    have hchain : smart_chain cfg st.stats p bad (defaulted_holdout cfg bad (some h0)) =
        some h0 := by
      rw [hh1]
      unfold smart_chain
      rw [hg, pyOr_none, pyOr_some_of_ne_zero _ h0ne]
    obtain ⟨hcool, -, -⟩ := release_smart now reason hsm hp hchain
    rw [hcool]
    exact alookup_insertOrdered_self ..
  · intro bad ps lo hps hlo hlopos hgpos holdout
    have hrule := get_next_holdout_eq bad hps hlo
    have hpos : 0 < (if bad then
        (if lo < ps.last_good_holdout.getD 0 then ps.last_good_holdout.getD 0 else lo * 2)
       else lo * (3 / 4)) := by
      cases bad with
      | false =>
        simp only [if_false, Bool.false_eq_true]
        positivity
      | true =>
        simp only [if_true]
        split_ifs with hlt
        · exact lt_trans hlopos hlt
        · positivity
    have hchain := smart_chain_of_rule cfg
      (defaulted_holdout cfg bad holdout) hrule (ne_of_gt hpos)
    obtain ⟨hcool, -, -⟩ := release_smart now reason hsm hp hchain
    rw [hcool]
    exact alookup_insertOrdered_self ..

/-- Witness for C3 at the S4 scenario: stats `last_holdout = 10 =
last_good_holdout` give the `bad` recommendation `10 * 2 = 20`, and a
first-ever release under `smartCfg` cools for `smart_holdout_start = 10`. -/
theorem claim3_smart_holdout_rule_witness :
    get_next_holdout
        [("a", { uptime := (0, 1), last_holdout := some 10, last_good_holdout := some 10 })]
        "a" true = some 20 ∧
    alookup (release smartCfg 0 oneUsedSt "a" false none none).cooling "a" = some 10 := by
  constructor
  · have hA := (claim3_smart_holdout_rule smartCfg
      { free := [], used := ["a"], cooling := [], blacklisted := [],
        stats := [("a", { uptime := (0, 1), last_holdout := some 10, last_good_holdout := some 10 })] }
      0 "a" none 10 rfl (by decide)).1 true
      { uptime := (0, 1), last_holdout := some 10, last_good_holdout := some 10 } 10 rfl rfl
    rw [hA]
    norm_num
  · have hB := (claim3_smart_holdout_rule smartCfg oneUsedSt 0 "a" none 10 rfl
      (by decide)).2.1 rfl rfl rfl rfl false
    rw [hB]
    norm_num [smartClamp, smartCfg]

/-! ## C4 — blacklist rescue: stable descending sort then first non-cooling -/

theorem find?_orderedInsert (key : Addr → WithTop ℕ) (pred : Addr → Bool) (x : Addr) :
    ∀ S : List Addr, List.Sorted (descBy key) S →
      (List.orderedInsert (descBy key) x S).find? pred =
        if pred x then
          (match S.find? pred with
           | some y => if key x < key y then some y else some x
           | none => some x)
        else S.find? pred := by
  intro S
  induction S with
  | nil =>
    intro _
    cases hpx : pred x <;> simp [List.orderedInsert, List.find?, hpx]
  | cons y ys ih =>
    intro hS
    have hys : List.Sorted (descBy key) ys := hS.of_cons
    have hyall : ∀ z ∈ ys, key z ≤ key y := fun z hz => List.rel_of_sorted_cons hS z hz
    by_cases hxy : descBy key x y
    · rw [List.orderedInsert_of_le (descBy key) ys hxy]
      cases hpx : pred x with
      | false =>
        rw [List.find?_cons_of_neg _ (by simp [hpx])]
        simp
      | true =>
        rw [List.find?_cons_of_pos _ hpx]
        simp only [if_true]
        cases hf : (y :: ys).find? pred with
        | none => rfl
        | some z =>
          have hz : z ∈ y :: ys := List.mem_of_find?_eq_some hf
          have hzy : key z ≤ key x := by
            rcases List.mem_cons.mp hz with rfl | hz'
            · exact hxy
            · exact le_trans (hyall z hz') hxy
          simp [not_lt.mpr hzy]
    · have : List.orderedInsert (descBy key) x (y :: ys) =
          y :: List.orderedInsert (descBy key) x ys := by
        simp [List.orderedInsert, hxy]
      rw [this]
      have hxy' : key x < key y := lt_of_not_le hxy
      cases hpy : pred y with
      | true =>
        rw [List.find?_cons_of_pos _ hpy, List.find?_cons_of_pos _ hpy]
        cases hpx : pred x <;> simp [hpx, hxy']
      | false =>
        rw [List.find?_cons_of_neg _ (by simp [hpy]), List.find?_cons_of_neg _ (by simp [hpy])]
        exact ih hys

theorem find?_sortDesc (key : Addr → WithTop ℕ) (pred : Addr → Bool) :
    ∀ l : List Addr, (sortDesc key l).find? pred = firstMax key (l.filter pred) := by
  intro l
  induction l with
  | nil => rfl
  | cons x xs ih =>
    have hS : List.Sorted (descBy key) (sortDesc key xs) :=
      List.sorted_insertionSort (descBy key) xs
    show (List.orderedInsert (descBy key) x (sortDesc key xs)).find? pred = _
    rw [find?_orderedInsert key pred x _ hS, ih]
    cases hpx : pred x with
    | false => simp [List.filter_cons, hpx]
    | true =>
      simp only [List.filter_cons, hpx, if_true]
      cases hf : firstMax key (xs.filter pred) <;> simp [firstMax, hf]

theorem firstMax_cons_ne_none (key : Addr → WithTop ℕ) (x : Addr) (xs : List Addr) :
    firstMax key (x :: xs) ≠ none := by
  simp only [firstMax]
  cases hf : firstMax key xs with
  | none => simp
  | some y => by_cases hlt : key x < key y <;> simp [hlt]

theorem firstMax_mem {key : Addr → WithTop ℕ} :
    ∀ (l : List Addr) (p : Addr), firstMax key l = some p → p ∈ l := by
  intro l
  induction l with
  | nil => intro p h; simp [firstMax] at h
  | cons x xs ih =>
    intro p h
    simp only [firstMax] at h
    cases hf : firstMax key xs with
    | none =>
      rw [hf] at h
      dsimp only at h
      injection h with h
      subst h
      exact List.mem_cons_self _ _
    | some y =>
      rw [hf] at h
      dsimp only at h
      by_cases hlt : key x < key y
      · rw [if_pos hlt] at h
        injection h with h
        subst h
        exact List.mem_cons_of_mem _ (ih _ hf)
      · rw [if_neg hlt] at h
        injection h with h
        subst h
        exact List.mem_cons_self _ _

theorem firstMax_le {key : Addr → WithTop ℕ} :
    ∀ (l : List Addr) (p : Addr), firstMax key l = some p → ∀ q ∈ l, key q ≤ key p := by
  intro l
  induction l with
  | nil => intro p _ q hq; simp at hq
  | cons x xs ih =>
    intro p h q hq
    simp only [firstMax] at h
    cases hf : firstMax key xs with
    | none =>
      rw [hf] at h
      dsimp only at h
      injection h with h
      subst h
      rcases List.mem_cons.mp hq with rfl | hq'
      · exact le_refl _
      · cases xs with
        | nil => simp at hq'
        | cons z zs => exact absurd hf (firstMax_cons_ne_none key z zs)
    | some y =>
      rw [hf] at h
      dsimp only at h
      by_cases hlt : key x < key y
      · rw [if_pos hlt] at h
        injection h with h
        subst h
        rcases List.mem_cons.mp hq with rfl | hq'
        · exact le_of_lt hlt
        · exact ih _ hf q hq'
      · rw [if_neg hlt] at h
        injection h with h
        subst h
        rcases List.mem_cons.mp hq with rfl | hq'
        · exact le_refl _
        · exact le_trans (ih _ hf q hq') (le_of_not_lt hlt)

theorem firstMax_ne_none {key : Addr → WithTop ℕ} :
    ∀ {l : List Addr}, l ≠ [] → ∃ p, firstMax key l = some p := by
  intro l h
  cases l with
  | nil => exact absurd rfl h
  | cons x xs =>
    simp only [firstMax]
    cases firstMax key xs with
    | none => exact ⟨x, rfl⟩
    | some y =>
      by_cases hlt : key x < key y
      · exact ⟨y, by simp [hlt]⟩
      · exact ⟨x, by simp [hlt]⟩

theorem rescuePick_eq (st : PoolState) :
    rescuePick st =
      firstMax (uptime_of st.stats)
        ((keysOf st.blacklisted).filter (fun q => decide (q ∉ keysOf st.cooling))) :=
  find?_sortDesc (uptime_of st.stats) _ (keysOf st.blacklisted)

theorem rescuePick_mem {st : PoolState} {p : Addr} (h : rescuePick st = some p) :
    p ∈ keysOf st.blacklisted ∧ p ∉ keysOf st.cooling := by
  rw [rescuePick_eq] at h
  have hp := firstMax_mem _ _ h
  rw [List.mem_filter] at hp
  exact ⟨hp.1, of_decide_eq_true hp.2⟩

theorem rescuePick_max {st : PoolState} {p : Addr} (h : rescuePick st = some p) :
    ∀ q ∈ keysOf st.blacklisted, q ∉ keysOf st.cooling →
      uptime_of st.stats q ≤ uptime_of st.stats p := by
  intro q hq hqc
  rw [rescuePick_eq] at h
  exact firstMax_le _ _ h q (List.mem_filter.mpr ⟨hq, decide_eq_true hqc⟩)

theorem rescuePick_isSome {st : PoolState} {q : Addr} (hq : q ∈ keysOf st.blacklisted)
    (hqc : q ∉ keysOf st.cooling) : ∃ p, rescuePick st = some p := by
  rw [rescuePick_eq]
  apply firstMax_ne_none
  intro hnil
  have : q ∈ (keysOf st.blacklisted).filter (fun q => decide (q ∉ keysOf st.cooling)) :=
    List.mem_filter.mpr ⟨hq, decide_eq_true hqc⟩
  rw [hnil] at this
  simp at this

theorem mem_keysOf_eraseKey {α : Type} {l : List (Addr × α)} {p q : Addr} :
    q ∈ keysOf (eraseKey l p) ↔ q ∈ keysOf l ∧ q ≠ p := by
  simp only [mem_keysOf, eraseKey, List.mem_filter]
  constructor
  · rintro ⟨kv, ⟨hkv, hne⟩, rfl⟩
    exact ⟨⟨kv, hkv, rfl⟩, of_decide_eq_true hne⟩
  · rintro ⟨⟨kv, hkv, rfl⟩, hne⟩
    exact ⟨kv, ⟨hkv, decide_eq_true hne⟩, rfl⟩

theorem acquireSelect_free {st : PoolState} {q : Addr} {rest : List Addr}
    (hfree : st.free = q :: rest) :
    acquireSelect st =
      (.acquired q, { st with free := rest, used := insertSet st.used q }) := by
  simp [acquireSelect, hfree]

theorem acquireSelect_rescue {st : PoolState} {p : Addr}
    (hfree : st.free = []) (hpick : rescuePick st = some p) :
    acquireSelect st =
      (.acquired p, { st with blacklisted := eraseKey st.blacklisted p,
                              used := insertSet st.used p }) := by
  have hbl : st.blacklisted.isEmpty = false := by
    rcases (rescuePick_mem hpick).1 with hmem
    rcases mem_keysOf.mp hmem with ⟨kv, hkv, -⟩
    cases hb : st.blacklisted with
    | nil => rw [hb] at hkv; simp at hkv
    | cons _ _ => rfl
  simp [acquireSelect, hfree, hbl, hpick]

/-- **C4.** When the `acquire` selection finds `free` empty and the
blacklist non-empty, it rescues the blacklisted proxy that is not
currently cooling and maximizes reliability (`_uptime`: `ok // fail` when
`fail ≠ 0`, else `ok`, and `+∞` with no stats); ties are broken by
blacklist insertion order — the selection equals the *first* maximum of
the insertion-ordered non-cooling blacklist (stable descending sort).
The returned proxy is removed from `blacklisted` and added to `used`,
and every other blacklisted proxy stays blacklisted. -/
theorem claim4_blacklist_rescue_argmax (st : PoolState) (p : Addr)
    (hfree : st.free = []) (hpick : rescuePick st = some p) :
    (p ∈ keysOf st.blacklisted ∧ p ∉ keysOf st.cooling) ∧
    (∀ q ∈ keysOf st.blacklisted, q ∉ keysOf st.cooling →
      uptime_of st.stats q ≤ uptime_of st.stats p) ∧
    (rescuePick st =
      firstMax (uptime_of st.stats)
        ((keysOf st.blacklisted).filter (fun q => decide (q ∉ keysOf st.cooling)))) ∧
    (acquireSelect st =
      (.acquired p, { st with blacklisted := eraseKey st.blacklisted p,
                              used := insertSet st.used p })) ∧
    (∀ q ∈ keysOf st.blacklisted, q ≠ p →
      q ∈ keysOf (acquireSelect st).2.blacklisted) := by
  refine ⟨rescuePick_mem hpick, rescuePick_max hpick, rescuePick_eq st,
    acquireSelect_rescue hfree hpick, ?_⟩
  intro q hq hqp
  rw [acquireSelect_rescue hfree hpick]
  exact mem_keysOf_eraseKey.mpr ⟨hq, hqp⟩

/-- Witness for C4: blacklist `["a", "b"]` with `"a"` cooling and `"b"`
less reliable than the untried (∞) `"a"` — but `"a"` is cooling, so `"b"`
is rescued, leaves the blacklist and goes to `used`. -/
theorem claim4_blacklist_rescue_argmax_witness :
    ("b" ∈ keysOf (rescueSt.blacklisted) ∧ "b" ∉ keysOf rescueSt.cooling) ∧
    (∀ q ∈ keysOf rescueSt.blacklisted, q ∉ keysOf rescueSt.cooling →
      uptime_of rescueSt.stats q ≤ uptime_of rescueSt.stats "b") ∧
    (rescuePick rescueSt =
      firstMax (uptime_of rescueSt.stats)
        ((keysOf rescueSt.blacklisted).filter (fun q => decide (q ∉ keysOf rescueSt.cooling)))) ∧
    (acquireSelect rescueSt =
      (.acquired "b", { rescueSt with blacklisted := eraseKey rescueSt.blacklisted "b",
                                      used := insertSet rescueSt.used "b" })) ∧
    (∀ q ∈ keysOf rescueSt.blacklisted, q ≠ "b" →
      q ∈ keysOf (acquireSelect rescueSt).2.blacklisted) :=
  claim4_blacklist_rescue_argmax rescueSt "b" rfl (by decide)

/-! ## C10 — the timeout is checked only after a wait -/

theorem cool_released_free (now : ℚ) (st : PoolState) :
    (cool_released now st).free =
      st.free ++ ((st.cooling.filter (fun kv => decide (now ≥ kv.2))).map Prod.fst).filter
        (fun p => decide (p ∉ keysOf st.blacklisted)) := rfl

theorem cool_released_cooling_sub {now : ℚ} {st : PoolState} {q : Addr}
    (h : q ∈ keysOf (cool_released now st).cooling) : q ∈ keysOf st.cooling := by
  rcases mem_keysOf.mp h with ⟨kv, hkv, rfl⟩
  exact mem_keysOf.mpr ⟨kv, (List.mem_filter.mp hkv).1, rfl⟩

/-- **C10.** `acquire` checks its timeout only after a condition-variable
wait, never before returning an available proxy: whenever, at the top of
the loop with an unchanged registry, `free` is non-empty or some
blacklisted proxy is not cooling, the loop pass returns a proxy — for
*every* timeout and elapsed time, `acquireDecide` yields `returns`,
never `raisesNoFreeProxies` (second conjunct: `NoFreeProxies` can only
arise from a `wait` outcome). -/
theorem claim10_timeout_checked_after_wait (st : PoolState) (now : ℚ)
    (h : st.free ≠ [] ∨ ∃ q ∈ keysOf st.blacklisted, q ∉ keysOf st.cooling) :
    (∃ p st', acquireIter none now st = (.acquired p, st') ∧
      ∀ (timeout : Option ℚ) (elapsed : ℚ),
        acquireDecide timeout elapsed (acquireIter none now st) = .returns p) ∧
    (∀ (timeout : Option ℚ) (elapsed : ℚ) (out : AcquireOutcome) (stp : PoolState),
      acquireDecide timeout elapsed (out, stp) = .raisesNoFreeProxies →
      ∃ b, out = AcquireOutcome.wait b) := by
  constructor
  · have hiter : acquireIter none now st = acquireSelect (cool_released now st) := rfl
    cases hf : (cool_released now st).free with
    | cons q rest =>
      rw [hiter, acquireSelect_free hf]
      exact ⟨q, _, rfl, fun _ _ => rfl⟩
    | nil =>
      have hstfree : st.free = [] := by
        have := hf
        rw [cool_released_free] at this
        exact (List.append_eq_nil.mp this).1
      rcases h with hne | ⟨q, hqbl, hqc⟩
      · exact absurd hstfree hne
      · have hqbl2 : q ∈ keysOf (cool_released now st).blacklisted := hqbl
        have hqc2 : q ∉ keysOf (cool_released now st).cooling :=
          fun hmem => hqc (cool_released_cooling_sub hmem)
        obtain ⟨p, hpick⟩ := rescuePick_isSome hqbl2 hqc2
        rw [hiter, acquireSelect_rescue hf hpick]
        exact ⟨p, _, rfl, fun _ _ => rfl⟩
  · intro timeout elapsed out stp hraise
    cases out with
    | acquired p => simp [acquireDecide] at hraise
    | wait b => exact ⟨b, rfl⟩

/-- Witness for C10: a pool whose only free proxy is `"a"` returns it
even with `timeout = 0` already elapsed (`elapsed = 7 > 0`). -/
theorem claim10_timeout_checked_after_wait_witness :
    (∃ p st', acquireIter none 0
        { free := ["a"], used := [], cooling := [], blacklisted := [], stats := [] } =
        (.acquired p, st') ∧
      ∀ (timeout : Option ℚ) (elapsed : ℚ),
        acquireDecide timeout elapsed (acquireIter none 0
          { free := ["a"], used := [], cooling := [], blacklisted := [], stats := [] }) =
          .returns p) ∧
    (∀ (timeout : Option ℚ) (elapsed : ℚ) (out : AcquireOutcome) (stp : PoolState),
      acquireDecide timeout elapsed (out, stp) = .raisesNoFreeProxies →
      ∃ b, out = AcquireOutcome.wait b) :=
  claim10_timeout_checked_after_wait
    { free := ["a"], used := [], cooling := [], blacklisted := [], stats := [] } 0
    (Or.inl (by decide))

/-! ## C5 — invariants of reachable pool states -/

theorem keysOf_filter_sublist {α : Type} (l : List (Addr × α)) (q : Addr × α → Bool) :
    List.Sublist (keysOf (l.filter q)) (keysOf l) :=
  (List.filter_sublist l).map Prod.fst

theorem eq_of_keys_nodup {α : Type} {l : List (Addr × α)} (h : (keysOf l).Nodup)
    {kv kw : Addr × α} (h1 : kv ∈ l) (h2 : kw ∈ l) (he : kv.1 = kw.1) : kv = kw := by
  induction l with
  | nil => simp at h1
  | cons a t ih =>
    have hhead : a.1 ∉ keysOf t := by
      have := h
      simp only [keysOf, List.map_cons, List.nodup_cons] at this
      exact fun hm => this.1 (by simpa [keysOf] using hm)
    have ht : (keysOf t).Nodup := by
      have := h
      simp only [keysOf, List.map_cons, List.nodup_cons] at this
      exact this.2
    rcases List.mem_cons.mp h1 with rfl | h1' <;> rcases List.mem_cons.mp h2 with rfl | h2'
    · rfl
    · exact absurd (mem_keysOf.mpr ⟨kw, h2', he.symm⟩) hhead
    · exact absurd (mem_keysOf.mpr ⟨kv, h1', he⟩) hhead
    · exact ih ht h1' h2'

theorem keysOf_insertOrdered {α : Type} (l : List (Addr × α)) (k : Addr) (v : α) :
    keysOf (insertOrdered l k v) =
      if k ∈ keysOf l then keysOf l else keysOf l ++ [k] := by
  unfold insertOrdered
  split
  · rename_i hmem
    unfold keysOf
    rw [List.map_map]
    apply List.map_congr_left
    intro kv _
    by_cases hk : kv.1 = k <;> simp [hk]
  · rename_i hmem
    simp [keysOf]

theorem mem_keysOf_insertOrdered {α : Type} {l : List (Addr × α)} {k q : Addr} {v : α} :
    q ∈ keysOf (insertOrdered l k v) ↔ q ∈ keysOf l ∨ q = k := by
  rw [keysOf_insertOrdered]
  split
  · rename_i hmem
    constructor
    · exact Or.inl
    · rintro (h | rfl)
      · exact h
      · exact hmem
  · simp

theorem nodup_keysOf_insertOrdered {α : Type} {l : List (Addr × α)} {k : Addr} {v : α}
    (h : (keysOf l).Nodup) : (keysOf (insertOrdered l k v)).Nodup := by
  rw [keysOf_insertOrdered]
  split
  · exact h
  · rename_i hmem
    simp only [List.nodup_append, List.nodup_cons, List.nodup_nil]
    exact ⟨h, ⟨by simp, by simp⟩, by simpa [List.disjoint_singleton] using hmem⟩

theorem insertLastUpdated_eq {α : Type} (l : List (Addr × α)) (k : Addr) (v : α) :
    insertLastUpdated l k v = eraseKey l k ++ [(k, v)] := rfl

theorem mem_keysOf_insertLastUpdated {α : Type} {l : List (Addr × α)} {k q : Addr} {v : α} :
    q ∈ keysOf (insertLastUpdated l k v) ↔ (q ∈ keysOf l ∧ q ≠ k) ∨ q = k := by
  rw [insertLastUpdated_eq]
  unfold keysOf
  rw [List.map_append]
  simp only [List.mem_append]
  constructor
  · rintro (h | h)
    · exact Or.inl (mem_keysOf_eraseKey.mp h)
    · simp at h
      exact Or.inr h
  · rintro (h | rfl)
    · exact Or.inl (mem_keysOf_eraseKey.mpr h)
    · simp

theorem nodup_keysOf_insertLastUpdated {α : Type} {l : List (Addr × α)} {k : Addr} {v : α}
    (h : (keysOf l).Nodup) : (keysOf (insertLastUpdated l k v)).Nodup := by
  rw [insertLastUpdated_eq]
  unfold keysOf
  rw [List.map_append]
  simp only [List.nodup_append, List.nodup_cons, List.nodup_nil, List.map_cons, List.map_nil]
  refine ⟨(keysOf_filter_sublist l _).nodup h, ⟨by simp, by simp⟩, ?_⟩
  intro q hq
  simp only [List.mem_singleton]
  intro hqk
  subst hqk
  exact absurd (mem_keysOf_eraseKey.mp hq).2 (by simp)

theorem mem_insertSet {l : List Addr} {p q : Addr} :
    q ∈ insertSet l p ↔ q ∈ l ∨ q = p := by
  unfold insertSet
  split
  · rename_i hmem
    constructor
    · exact Or.inl
    · rintro (h | rfl)
      · exact h
      · exact hmem
  · simp

theorem nodup_insertSet {l : List Addr} {p : Addr} (h : l.Nodup) : (insertSet l p).Nodup := by
  unfold insertSet
  split
  · exact h
  · rename_i hmem
    simp only [List.nodup_append, List.nodup_cons, List.nodup_nil]
    exact ⟨h, ⟨by simp, by simp⟩, by simpa [List.disjoint_singleton] using hmem⟩

theorem Inv_cool_released (now : ℚ) {st : PoolState} (h : Inv st) :
    Inv (cool_released now st) := by
  obtain ⟨hfN, huN, hcN, hbN, hfu, hfc, hfb, huc, hub⟩ := h
  have hpc : ∀ p ∈ ((st.cooling.filter (fun kv => decide (now ≥ kv.2))).map Prod.fst).filter
      (fun p => decide (p ∉ keysOf st.blacklisted)),
      p ∈ keysOf st.cooling ∧ p ∉ keysOf st.blacklisted ∧
      p ∉ keysOf (st.cooling.filter (fun kv => decide (¬ now ≥ kv.2))) := by
    intro p hp
    rw [List.mem_filter] at hp
    obtain ⟨hp1, hp2⟩ := hp
    rw [List.mem_map] at hp1
    obtain ⟨kv, hkv, rfl⟩ := hp1
    rw [List.mem_filter] at hkv
    refine ⟨mem_keysOf.mpr ⟨kv, hkv.1, rfl⟩, of_decide_eq_true hp2, ?_⟩
    intro hmem
    rcases mem_keysOf.mp hmem with ⟨kw, hkw, hkeq⟩
    rw [List.mem_filter] at hkw
    have hkvkw : kw = kv := eq_of_keys_nodup hcN hkw.1 hkv.1 hkeq
    subst hkvkw
    exact absurd (of_decide_eq_true hkv.2) (of_decide_eq_true hkw.2)
  have hpromN : (((st.cooling.filter (fun kv => decide (now ≥ kv.2))).map Prod.fst).filter
      (fun p => decide (p ∉ keysOf st.blacklisted))).Nodup :=
    ((keysOf_filter_sublist st.cooling _).nodup hcN).filter _
  unfold Inv cool_released
  dsimp only
  refine ⟨?_, huN, ?_, hbN, ?_, ?_, ?_, ?_, hub⟩
  · exact hfN.append hpromN (fun a haf hap => hfc a haf (hpc a hap).1)
  · exact (keysOf_filter_sublist st.cooling _).nodup hcN
  · intro p hp
    rcases List.mem_append.mp hp with hp' | hp'
    · exact hfu p hp'
    · intro hu
      exact huc p hu (hpc p hp').1
  · intro p hp
    rcases List.mem_append.mp hp with hp' | hp'
    · exact fun hmem => hfc p hp' ((keysOf_filter_sublist _ _).subset hmem)
    · exact (hpc p hp').2.2
  · intro p hp
    rcases List.mem_append.mp hp with hp' | hp'
    · exact hfb p hp'
    · exact (hpc p hp').2.1
  · intro p hp
    exact fun hmem => huc p hp ((keysOf_filter_sublist _ _).subset hmem)

theorem Inv_remove_outdated (R : List Addr) {st : PoolState} (h : Inv st) :
    Inv (remove_outdated R st) := by
  obtain ⟨hfN, huN, hcN, hbN, hfu, hfc, hfb, huc, hub⟩ := h
  have hused : (remove_outdated R st).used = st.used.filter (fun p => decide (p ∈ R)) := rfl
  have hcool : (remove_outdated R st).cooling =
      st.cooling.filter (fun kv => decide (kv.1 ∈ R)) := rfl
  have hblack : (remove_outdated R st).blacklisted =
      st.blacklisted.filter (fun kv => decide (kv.1 ∈ R)) := rfl
  have hfmem : ∀ p ∈ (remove_outdated R st).free, p ∈ st.free ∧
      p ∉ (remove_outdated R st).used ∧ p ∉ keysOf (remove_outdated R st).blacklisted ∧
      p ∉ keysOf (remove_outdated R st).cooling := by
    intro p hp
    rw [remove_outdated_free_eq, List.mem_filter] at hp
    have hd := of_decide_eq_true hp.2
    exact ⟨hp.1, hd.2.1, hd.2.2.1, hd.2.2.2⟩
  unfold Inv
  refine ⟨?_, ?_, ?_, ?_, ?_, ?_, ?_, ?_, ?_⟩
  · rw [remove_outdated_free_eq]
    exact hfN.filter _
  · rw [hused]
    exact huN.filter _
  · rw [hcool]
    exact (keysOf_filter_sublist _ _).nodup hcN
  · rw [hblack]
    exact (keysOf_filter_sublist _ _).nodup hbN
  · exact fun p hp => (hfmem p hp).2.1
  · exact fun p hp => (hfmem p hp).2.2.2
  · exact fun p hp => (hfmem p hp).2.2.1
  · intro p hp
    rw [hused, List.mem_filter] at hp
    rw [hcool]
    exact fun hmem => huc p hp.1 ((keysOf_filter_sublist _ _).subset hmem)
  · intro p hp
    rw [hused, List.mem_filter] at hp
    rw [hblack]
    exact fun hmem => hub p hp.1 ((keysOf_filter_sublist _ _).subset hmem)

theorem Inv_acquireSelect {st : PoolState} (h : Inv st) : Inv (acquireSelect st).2 := by
  obtain ⟨hfN, huN, hcN, hbN, hfu, hfc, hfb, huc, hub⟩ := h
  cases hf : st.free with
  | cons q rest =>
    rw [acquireSelect_free hf]
    have hqf : q ∈ st.free := by rw [hf]; exact List.mem_cons_self _ _
    have hrest : ∀ p ∈ rest, p ∈ st.free := fun p hp => by
      rw [hf]; exact List.mem_cons_of_mem _ hp
    have hcons := hfN
    rw [hf, List.nodup_cons] at hcons
    unfold Inv
    refine ⟨hcons.2, nodup_insertSet huN, hcN, hbN, ?_, ?_, ?_, ?_, ?_⟩
    · intro p hp hmem
      rcases mem_insertSet.mp hmem with hm | rfl
      · exact hfu p (hrest p hp) hm
      · exact hcons.1 hp
    · exact fun p hp => hfc p (hrest p hp)
    · exact fun p hp => hfb p (hrest p hp)
    · intro p hp
      rcases mem_insertSet.mp hp with hm | rfl
      · exact huc p hm
      · exact hfc p hqf
    · intro p hp
      rcases mem_insertSet.mp hp with hm | rfl
      · exact hub p hm
      · exact hfb p hqf
  | nil =>
    by_cases hbl : st.blacklisted.isEmpty
    · have heq : acquireSelect st = (.wait (!st.cooling.isEmpty), st) := by
        simp [acquireSelect, hf, hbl]
      rw [heq]
      exact ⟨hfN, huN, hcN, hbN, hfu, hfc, hfb, huc, hub⟩
    · cases hpick : rescuePick st with
      | none =>
        have heq : acquireSelect st = (.wait (!st.cooling.isEmpty), st) := by
          simp [acquireSelect, hf, hbl, hpick]
        rw [heq]
        exact ⟨hfN, huN, hcN, hbN, hfu, hfc, hfb, huc, hub⟩
      | some q =>
        rw [acquireSelect_rescue hf hpick]
        obtain ⟨hqbl, hqc⟩ := rescuePick_mem hpick
        have hfnil : ∀ p ∈ st.free, False := by
          intro p hp
          rw [hf] at hp
          simp at hp
        unfold Inv
        refine ⟨hfN, nodup_insertSet huN, hcN,
          (keysOf_filter_sublist st.blacklisted _).nodup hbN,
          fun p hp => absurd (hfnil p hp) not_false,
          fun p hp => absurd (hfnil p hp) not_false,
          fun p hp => absurd (hfnil p hp) not_false, ?_, ?_⟩
        · intro p hp
          rcases mem_insertSet.mp hp with hm | rfl
          · exact huc p hm
          · exact hqc
        · intro p hp hmem
          rcases mem_insertSet.mp hp with hm | rfl
          · exact hub p hm (mem_keysOf_eraseKey.mp hmem).1
          · exact (mem_keysOf_eraseKey.mp hmem).2 rfl

/-- The shape of the state produced by a non-stale `release`, for any
value of the final holdout `h2` and any updated stats: the invariant is
preserved. -/
theorem Inv_release_shape {st : PoolState} (h : Inv st) (p : Addr) (hp : p ∈ st.used)
    (bad : Bool) (h2 : Option ℚ) (now : ℚ) (reason : Option String)
    (stats' : List (Addr × ProxyStat)) :
    Inv { free := if bad then st.free else if h2 = none then st.free ++ [p] else st.free,
          used := st.used.erase p,
          cooling := match h2 with
            | some hq => insertOrdered st.cooling p (now + hq)
            | none => st.cooling,
          blacklisted := if bad then insertLastUpdated st.blacklisted p reason
            else st.blacklisted,
          stats := stats' } := by
  obtain ⟨hfN, huN, hcN, hbN, hfu, hfc, hfb, huc, hub⟩ := h
  have hnotE : p ∉ st.used.erase p := fun hm => (huN.mem_erase_iff.mp hm).1 rfl
  have hsubE : ∀ q ∈ st.used.erase p, q ∈ st.used := fun q hq => List.mem_of_mem_erase hq
  have hpf : p ∉ st.free := fun hf => hfu p hf hp
  have hpc : p ∉ keysOf st.cooling := huc p hp
  have hpb : p ∉ keysOf st.blacklisted := hub p hp
  have hfree' : ∀ q ∈ (if bad then st.free
      else if h2 = none then st.free ++ [p] else st.free), q ∈ st.free ∨ (q = p ∧ bad = false) := by
    intro q hq
    cases bad with
    | true => exact Or.inl hq
    | false =>
      cases h2 with
      | none =>
        simp at hq
        rcases hq with hm | hm
        · exact Or.inl hm
        · exact Or.inr ⟨hm, rfl⟩
      | some hv =>
        simp at hq
        exact Or.inl hq
  have hcool' : ∀ q, q ∈ keysOf (match h2 with
      | some hq => insertOrdered st.cooling p (now + hq)
      | none => st.cooling) → q ∈ keysOf st.cooling ∨ q = p := by
    intro q hq
    cases h2 with
    | none => exact Or.inl hq
    | some hv => exact mem_keysOf_insertOrdered.mp hq
  have hbl' : ∀ q, q ∈ keysOf (if bad then insertLastUpdated st.blacklisted p reason
      else st.blacklisted) → q ∈ keysOf st.blacklisted ∨ q = p := by
    intro q hq
    cases bad with
    | false => exact Or.inl hq
    | true =>
      rcases mem_keysOf_insertLastUpdated.mp hq with ⟨hm, -⟩ | rfl
      · exact Or.inl hm
      · exact Or.inr rfl
  unfold Inv
  refine ⟨?_, huN.erase p, ?_, ?_, ?_, ?_, ?_, ?_, ?_⟩
  · cases bad with
    | true => exact hfN
    | false =>
      cases h2 with
      | none =>
        simp only [Bool.false_eq_true, if_false, if_pos rfl]
        exact hfN.append (List.nodup_singleton p)
          (fun a haf hap => (by simpa using hap : a = p) ▸ hpf <| haf)
      | some hv => simpa using hfN
  · cases h2 with
    | none => exact hcN
    | some hv => exact nodup_keysOf_insertOrdered hcN
  · cases bad with
    | true => exact nodup_keysOf_insertLastUpdated hbN
    | false => exact hbN
  · intro q hq hmem
    rcases hfree' q hq with hm | ⟨rfl, -⟩
    · exact hfu q hm (hsubE q hmem)
    · exact hnotE hmem
  · intro q hq hmem
    rcases hfree' q hq with hm | ⟨rfl, hb⟩
    · rcases hcool' q hmem with hm2 | rfl
      · exact hfc q hm hm2
      · exact hpf hm
    · -- q = p appended to free only when h2 = none, so cooling is unchanged
      cases h2 with
      | none => exact hpc hmem
      | some hv =>
        subst hb
        simp at hq
        exact hpf hq
  · intro q hq hmem
    rcases hfree' q hq with hm | ⟨rfl, hb⟩
    · rcases hbl' q hmem with hm2 | rfl
      · exact hfb q hm hm2
      · exact hpf hm
    · subst hb
      simp only [Bool.false_eq_true, if_false] at hmem
      exact hpb hmem
  · intro q hq hmem
    rcases hcool' q hmem with hm | rfl
    · exact huc q (hsubE q hq) hm
    · exact hnotE hq
  · intro q hq hmem
    rcases hbl' q hmem with hm | rfl
    · exact hub q (hsubE q hq) hm
    · exact hnotE hq

theorem Inv_release (cfg : PoolConfig) (now : ℚ) (p : Addr) (bad : Bool)
    (holdout : Option ℚ) (reason : Option String) {st : PoolState} (h : Inv st) :
    Inv (release cfg now st p bad holdout reason) := by
  by_cases hp : p ∈ st.used
  · unfold release
    rw [if_pos hp]
    exact Inv_release_shape h p hp bad _ now reason _
  · rw [release_not_mem hp]
    exact h

theorem Inv_step {st st' : PoolState} (h : Inv st) (hs : Step st st') : Inv st' := by
  cases hs with
  | acq Rc now =>
    unfold acquireIter
    cases Rc with
    | none => exact Inv_acquireSelect (Inv_cool_released now h)
    | some R => exact Inv_acquireSelect (Inv_cool_released now (Inv_remove_outdated R h))
  | rel cfg now p bad holdout reason => exact Inv_release cfg now p bad holdout reason h

theorem Inv_reachable {st0 st : PoolState} (h0 : Inv st0) (hr : Reachable st0 st) :
    Inv st := by
  unfold Reachable at hr
  induction hr with
  | refl => exact h0
  | tail _ hstep ih => exact Inv_step ih hstep

theorem acquireSelect_acquired_inv {st2 : PoolState} {p : Addr} {st' : PoolState}
    (h : acquireSelect st2 = (.acquired p, st')) :
    (∃ rest, st2.free = p :: rest) ∨ (st2.free = [] ∧ rescuePick st2 = some p) := by
  cases hf : st2.free with
  | cons q rest =>
    rw [acquireSelect_free hf] at h
    injection h with h1 h2
    injection h1 with h1
    subst h1
    exact Or.inl ⟨rest, rfl⟩
  | nil =>
    by_cases hbl : st2.blacklisted.isEmpty
    · have heq : acquireSelect st2 = (.wait (!st2.cooling.isEmpty), st2) := by
        simp [acquireSelect, hf, hbl]
      rw [heq] at h
      injection h with h1 h2
      injection h1
    · cases hpick : rescuePick st2 with
      | some q =>
        rw [acquireSelect_rescue hf hpick] at h
        injection h with h1 h2
        injection h1 with h1
        subst h1
        exact Or.inr ⟨rfl, rfl⟩
      | none =>
        have heq : acquireSelect st2 = (.wait (!st2.cooling.isEmpty), st2) := by
          simp [acquireSelect, hf, hbl, hpick]
        rw [heq] at h
        injection h with h1 h2
        injection h1

theorem acquire_no_cooling {st : PoolState} (h : Inv st) (now : ℚ) (p : Addr)
    (st' : PoolState) (ha : acquireIter none now st = (.acquired p, st')) :
    ∀ d, alookup st.cooling p = some d → d ≤ now := by
  intro d hd
  by_contra hlt
  push_neg at hlt
  have hmem : (p, d) ∈ st.cooling := alookup_eq_some_mem hd
  have hmem2 : (p, d) ∈ (cool_released now st).cooling := by
    unfold cool_released
    dsimp only
    refine List.mem_filter.mpr ⟨hmem, ?_⟩
    simp only [decide_eq_true_eq]
    exact not_le.mpr hlt
  have hkey : p ∈ keysOf (cool_released now st).cooling := mem_keysOf.mpr ⟨(p, d), hmem2, rfl⟩
  have hInv2 : Inv (cool_released now st) := Inv_cool_released now h
  obtain ⟨-, -, -, -, -, hfc2, -, -, -⟩ := hInv2
  have ha2 : acquireSelect (cool_released now st) = (.acquired p, st') := ha
  rcases acquireSelect_acquired_inv ha2 with ⟨rest, hf⟩ | ⟨-, hpick⟩
  · exact hfc2 p (by rw [hf]; exact List.mem_cons_self _ _) hkey
  · exact (rescuePick_mem hpick).2 hkey

/-- **C5.** For every pool state reachable (by `acquire` loop passes and
`release` calls) from a state satisfying the pool invariant: `free` and
`used` are disjoint, no cooling address is in `free`, and `acquire` never
returns an address whose cooling deadline has not yet passed — in
particular a proxy that is both blacklisted and cooling is invisible to
`acquire` until its deadline passes (blacklist rescue skips cooling
addresses; promotion to `free` happens only at the deadline). -/
theorem claim5_pool_invariants (st0 st : PoolState) (h0 : Inv st0) (hr : Reachable st0 st) :
    (∀ p ∈ st.free, p ∉ st.used) ∧
    (∀ p ∈ st.free, p ∉ keysOf st.cooling) ∧
    (∀ (now : ℚ) (p : Addr) (st' : PoolState),
      acquireIter none now st = (.acquired p, st') →
      ∀ d, alookup st.cooling p = some d → d ≤ now) ∧
    (∀ (now : ℚ) (p q : Addr) (d : ℚ) (st' : PoolState),
      p ∈ keysOf st.blacklisted → alookup st.cooling p = some d → now < d →
      acquireIter none now st = (.acquired q, st') → q ≠ p) := by
  have hInv : Inv st := Inv_reachable h0 hr
  obtain ⟨-, -, -, -, hfu, hfc, -, -, -⟩ := hInv
  refine ⟨hfu, hfc, ?_, ?_⟩
  · exact fun now p st' ha d hd => acquire_no_cooling (Inv_reachable h0 hr) now p st' ha d hd
  · intro now p q d st' _ hd hlt ha heq
    rw [heq] at ha
    exact absurd (acquire_no_cooling (Inv_reachable h0 hr) now p st' ha d hd) (not_le.mpr hlt)

/-- Witness for C5 at a concrete initial state (one free, one used, one
blacklisted-and-cooling proxy), reachable from itself in zero steps. -/
theorem claim5_pool_invariants_witness :
    (∀ p ∈ mixedSt.free, p ∉ mixedSt.used) ∧
    (∀ p ∈ mixedSt.free, p ∉ keysOf mixedSt.cooling) ∧
    (∀ (now : ℚ) (p : Addr) (st' : PoolState),
      acquireIter none now mixedSt = (.acquired p, st') →
      ∀ d, alookup mixedSt.cooling p = some d → d ≤ now) ∧
    (∀ (now : ℚ) (p q : Addr) (d : ℚ) (st' : PoolState),
      p ∈ keysOf mixedSt.blacklisted → alookup mixedSt.cooling p = some d → now < d →
      acquireIter none now mixedSt = (.acquired q, st') → q ≠ p) :=
  claim5_pool_invariants mixedSt mixedSt (by decide) Relation.ReflTransGen.refl

end ProxySwitcher
